import Mathlib

/-!
# Citation uniqueness registry and variant generator

A shallow embedding of `scripts/generate.js`: the registry of used hashes
(`data/used.json`, loaded into a JavaScript `Set`, persisted through
`Array.from(usedSet).slice(-10000)`) and `generateUniqueCitations`.

Conventions of the embedding.

* `crypto.createHash('sha256')...slice(0, 12)` is an external library call: the
  function `hashString : String → String` is a parameter of every definition
  that hashes, and every universally quantified theorem holds for each such function.
* Every random value consumed by one loop iteration (`Math.random`, the `faker`
  generators, `uuidv4`) is a field of a `Draw`; a call receives the stream of
  its draws, indexed by the number of the attempt.
* A JavaScript `Set` of strings is the list of its elements in insertion order.
* The mutable `usedSet` is passed in and returned next to the result.
* JavaScript exceptions are the `error` results of `Except JsError`.
-/

namespace Generate

/-! ## Strings -/

/-- ECMAScript `WhiteSpace` and `LineTerminator` code points: the characters
that `String.prototype.trim` removes. -/
def isJsWhitespace (c : Char) : Bool :=
  let n := c.toNat
  n = 0x9 || n = 0xA || n = 0xB || n = 0xC || n = 0xD || n = 0x20 || n = 0xA0 ||
  n = 0x1680 || (0x2000 ≤ n && n ≤ 0x200A) || n = 0x2028 || n = 0x2029 ||
  n = 0x202F || n = 0x205F || n = 0x3000 || n = 0xFEFF

/-- The method `String.prototype.trim`. -/
def jsTrim (s : String) : String :=
  String.mk ((s.data.dropWhile isJsWhitespace).reverse.dropWhile isJsWhitespace).reverse

/-! ## Arrays and sets -/

/-- The method `Array.prototype.slice(start)` with the end omitted: a negative
`start` counts from the end of the array, and the start index is clamped to
`[0, length]`. -/
def jsSlice {α : Type} (xs : List α) (start : Int) : List α :=
  let len : Int := xs.length
  let k : Int := if start < 0 then max (len + start) 0 else min start len
  xs.drop k.toNat

/-- A JavaScript `Set` of strings: its elements in insertion order. -/
abbrev JsSet := List String

/-- The method `Set.prototype.has`. -/
def JsSet.has (s : JsSet) (x : String) : Bool := decide (x ∈ s)

/-- The method `Set.prototype.add`: a new element goes last, a present one changes nothing. -/
def JsSet.add (s : JsSet) (x : String) : JsSet := if x ∈ s then s else s ++ [x]

/-- The constructor `new Set(array)`: the elements are added in array order. -/
def JsSet.ofArray (xs : List String) : JsSet := xs.foldl JsSet.add []

/-- The function `Array.from(set)`: the elements in insertion order. -/
def JsSet.toArray (s : JsSet) : List String := s

/-! ## generateUniqueCitations -/

/-- The exceptions of the embedding. `typeError` is the JavaScript `TypeError`
(a method call on `undefined`, `new Set` of a value that is not iterable);
`fuelExhausted` is raised by the embedding alone, when the recursion bound of
`whileLoop` is used up while the loop condition still holds. -/
inductive JsError where
  | typeError
  | fuelExhausted
  deriving DecidableEq, Repr

/-- The random values one loop iteration consumes (lines 62 to 77). -/
structure Draw where
  /-- the value `Math.random()` contributes to the pool index -/
  u : Nat
  /-- the result of `faker.name.fullName()` -/
  fullName : String
  /-- the result of `faker.name.lastName()` -/
  lastName : String
  /-- the result of `faker.name.firstName()` -/
  firstName : String
  /-- the result of `faker.company.catchPhrase()` -/
  catchPhrase : String
  /-- the element `faker.helpers.arrayElement` picks among the five modifiers -/
  modifierPick : Nat
  /-- the result of `faker.lorem.sentence(2)` -/
  sentence : String
  /-- the result of `faker.lorem.words(3)` -/
  words : String
  /-- the element `faker.helpers.arrayElement` picks among the three insertions -/
  insertionPick : Nat
  /-- the result of `uuidv4()` -/
  uuid : String

/-- The object `{ text, id, hash }` pushed on line 82. -/
structure Variant where
  text : String
  id : String
  hash : String
  deriving DecidableEq, Repr

/-- The function `faker.helpers.arrayElement` on a non-empty array: one of its
elements, here the one at position `pick % length`. -/
def arrayElement (xs : List String) (pick : Nat) : String :=
  xs.getD (pick % xs.length) ""

/-- The array literal of lines 64 to 70. -/
def modifiers (d : Draw) : List String :=
  ["», selon " ++ d.fullName, "», rappelle " ++ d.lastName, "», souligne " ++ d.firstName,
   "», " ++ d.catchPhrase, ""]

/-- The array literal of lines 71 to 75. -/
def insertions (d : Draw) : List String := ["", d.sentence, d.words]

/-- The conditional template string of line 78; a JavaScript string is truthy
exactly when it is not empty. -/
def composeText (base insertion modifier uid : String) : String :=
  if insertion ≠ "" then base ++ " " ++ insertion ++ " " ++ modifier ++ " — ID " ++ uid
  else base ++ " " ++ modifier ++ " — ID " ++ uid

/-- Lines 62 to 79 for an already selected pool element: the candidate variant. -/
def mkVariant (hashString : String → String) (raw : String) (d : Draw) : Variant :=
  let base := jsTrim raw
  let modifier := arrayElement (modifiers d) d.modifierPick
  let insertion := arrayElement (insertions d) d.insertionPick
  let uid := hashString d.uuid
  let variant := composeText base insertion modifier uid
  let h := hashString variant
  { text := variant, id := uid, hash := h }

/-- The local variables of `generateUniqueCitations` next to the set it mutates. -/
structure LoopState where
  attempts : Nat
  chosen : List Variant
  usedSet : JsSet

/-- The loop condition of line 59. -/
def loopCond (pool : List String) (count : Int) (st : LoopState) : Bool :=
  decide ((st.chosen.length : Int) < count) && decide (st.attempts < pool.length * 3)

/-- The loop body, lines 60 to 83. `Math.floor(Math.random() * pool.length)` is a
position below `pool.length`, here `d.u % pool.length`; the element read at a
position the pool does not have is `undefined`, whose `.trim()` raises. -/
def loopBody (hashString : String → String) (pool : List String) (d : Draw)
    (st : LoopState) : Except JsError LoopState :=
  let attempts := st.attempts + 1
  match pool[d.u % pool.length]? with
  | none => .error .typeError
  | some raw =>
    let v := mkVariant hashString raw d
    if !st.usedSet.has v.hash then
      .ok { attempts := attempts, chosen := st.chosen ++ [v], usedSet := st.usedSet.add v.hash }
    else
      .ok { attempts := attempts, chosen := st.chosen, usedSet := st.usedSet }

/-- The `while` loop of lines 59 to 84, run for at most `fuel` iterations; the
iteration entered with `attempts = k` consumes the draw `rnd k`. -/
def whileLoop (hashString : String → String) (pool : List String) (count : Int)
    (rnd : Nat → Draw) : Nat → LoopState → Except JsError LoopState
  | fuel, st =>
    if loopCond pool count st then
      match fuel with
      | 0 => .error .fuelExhausted
      | fuel + 1 =>
        match loopBody hashString pool (rnd st.attempts) st with
        | .error e => .error e
        | .ok st1 => whileLoop hashString pool count rnd fuel st1
    else .ok st

/-- The whole body of `generateUniqueCitations` with its final local state; the
recursion bound is the attempt budget `pool.length * 3`. -/
def runLoop (hashString : String → String) (pool : List String) (usedSet : JsSet)
    (count : Int) (rnd : Nat → Draw) : Except JsError LoopState :=
  whileLoop hashString pool count rnd (pool.length * 3)
    { attempts := 0, chosen := [], usedSet := usedSet }

/-- The function `generateUniqueCitations(pool, usedSet, count)`: the returned
array and the set after the call. -/
def generateUniqueCitations (hashString : String → String) (pool : List String)
    (usedSet : JsSet) (count : Int) (rnd : Nat → Draw) :
    Except JsError (List Variant × JsSet) :=
  match runLoop hashString pool usedSet count rnd with
  | .error e => .error e
  | .ok st => .ok (st.chosen, st.usedSet)

/-- A sequence of calls on one shared set: each call has its own `count` and
its own random draws. -/
structure Call where
  count : Int
  rnd : Nat → Draw

/-- Sequential calls of `generateUniqueCitations` that share `usedSet`: the
array returned by each call, and the set after the last call. -/
def callSeq (hashString : String → String) (pool : List String) :
    JsSet → List Call → Except JsError (List (List Variant) × JsSet)
  | usedSet, [] => .ok ([], usedSet)
  | usedSet, c :: cs =>
    match generateUniqueCitations hashString pool usedSet c.count c.rnd with
    | .error e => .error e
    | .ok (chosen, usedSet1) =>
      match callSeq hashString pool usedSet1 cs with
      | .error e => .error e
      | .ok (rest, usedSet2) => .ok (chosen :: rest, usedSet2)

/-! ## main: loading and persisting the registry -/

/-- The array written on line 160: `Array.from(usedSet).slice(-10000)`. -/
def persisted (usedSet : JsSet) : List String := jsSlice (JsSet.toArray usedSet) (-10000)

/-- The part of `main` that concerns the registry, for a registry file that
holds the array of strings `used` and an already loaded pool: line 93, line 110
and line 160. The result is the citations of the run and the new file content. -/
def main (hashString : String → String) (citationsPool : List String) (used : List String)
    (rnd : Nat → Draw) : Except JsError (List Variant × List String) :=
  let usedSet := JsSet.ofArray used
  match generateUniqueCitations hashString citationsPool usedSet 4 rnd with
  | .error e => .error e
  | .ok (citations, usedSet1) => .ok (citations, persisted usedSet1)

/-- What one run of `main` reads besides the registry file: its pool and its random draws. -/
structure Run where
  citationsPool : List String
  rnd : Nat → Draw

/-- Successive runs of `main`, each loading the registry file the previous one
wrote: the citations of every run, and the registry file after the last run. -/
def mainRuns (hashString : String → String) :
    List String → List Run → Except JsError (List (List Variant) × List String)
  | used, [] => .ok ([], used)
  | used, r :: rs =>
    match main hashString r.citationsPool used r.rnd with
    | .error e => .error e
    | .ok (citations, used1) =>
      match mainRuns hashString used1 rs with
      | .error e => .error e
      | .ok (rest, used2) => .ok (citations :: rest, used2)

/-- No hash emitted in a run is emitted again in a later run. -/
def CrossRunDistinct (emitted : List (List Variant)) : Prop :=
  emitted.Pairwise (fun earlier later => ∀ v ∈ earlier, ∀ w ∈ later, v.hash ≠ w.hash)

/-! ## The registry file as JSON -/

/-- A value produced by `JSON.parse`. A number is carried as the bit pattern of
its IEEE 754 double, on which nothing is computed: only equality and the test
for zero are used. -/
inductive Json where
  | null
  | bool (b : Bool)
  | num (bits : Nat)
  | str (s : String)
  | arr (items : List Json)
  | obj (fields : List (String × Json))

/-- What `fs.readJson(p)` does with the file at `p`. -/
inductive ReadOutcome where
  /-- the file does not exist: `readFile` rejects -/
  | missing
  /-- the file exists and cannot be read: `readFile` rejects -/
  | unreadable
  /-- the content is not JSON: `JSON.parse` throws -/
  | notJson
  /-- the content parses to the value `j` -/
  | parsed (j : Json)

/-- The function `loadJson` (lines 30 to 36): the parsed value, or `null` when
`fs.readJson` throws. -/
def loadJson : ReadOutcome → Json
  | .parsed j => j
  | _ => .null

/-- The bit patterns of `+0` and `-0`. -/
def isZeroBits (bits : Nat) : Bool := bits = 0 || bits = 2 ^ 63

/-- JavaScript truthiness of a parsed value: `null`, `false`, `0`, `-0` and `""`
are falsy (`JSON.parse` yields no `NaN` and no `undefined`). -/
def truthy : Json → Bool
  | .null => false
  | .bool b => b
  | .num bits => !isZeroBits bits
  | .str s => s ≠ ""
  | .arr _ => true
  | .obj _ => true

/-- The expression `x || []`. -/
def orEmptyArray (x : Json) : Json := if truthy x then x else .arr []

/-- The comparison `SameValueZero` of two values held by different elements of
a parsed array: primitives compare by value, `+0` equals `-0`, and two
different objects or arrays are never the same value. -/
def sameValueZero : Json → Json → Bool
  | .null, .null => true
  | .bool a, .bool b => a == b
  | .num a, .num b => a == b || (isZeroBits a && isZeroBits b)
  | .str a, .str b => a == b
  | _, _ => false

/-- The method `Set.prototype.add` on a set of parsed values. -/
def addValue (s : List Json) (x : Json) : List Json :=
  if s.any (fun y => sameValueZero y x) then s else s ++ [x]

/-- The constructor `new Set(x)` for a parsed value `x`: an array is iterated
by element, a string by code point, and a boolean, a number or a plain object
is not iterable, which raises a `TypeError`. (`null` gives the empty set; it
does not reach `new Set` on line 93.) -/
def newSet : Json → Except JsError (List Json)
  | .arr items => .ok (items.foldl addValue [])
  | .str s => .ok ((s.data.map (fun c => Json.str (String.singleton c))).foldl addValue [])
  | .null => .ok []
  | .bool _ => .error .typeError
  | .num _ => .error .typeError
  | .obj _ => .error .typeError

/-- Lines 92 and 93 of `main`: `new Set((await loadJson(usedPath)) || [])`. -/
def loadUsedSet (file : ReadOutcome) : Except JsError (List Json) :=
  newSet (orEmptyArray (loadJson file))

/-! ## Predicates of the statements -/

/-- The character is one of the code points of the ECMAScript productions
`WhiteSpace` (tab, vertical tab, form feed, the byte order mark and the space
separators of Unicode) and `LineTerminator` (line feed, carriage return, line
separator, paragraph separator), listed one by one. -/
def IsWhiteSpaceOrLineTerminator (c : Char) : Prop :=
  c.toNat ∈ [0x0009, 0x000B, 0x000C, 0xFEFF, 0x0020, 0x00A0, 0x1680, 0x2000, 0x2001, 0x2002,
    0x2003, 0x2004, 0x2005, 0x2006, 0x2007, 0x2008, 0x2009, 0x200A, 0x202F, 0x205F, 0x3000,
    0x000A, 0x000D, 0x2028, 0x2029]

/-- The string `base` is `raw` with its surrounding white space removed: `raw`
is `base` between a run of white space and line terminators before it and one
after it, and `base` neither starts nor ends with such a character. -/
def IsTrimOf (raw base : String) : Prop :=
  ∃ lead trail : List Char, raw.data = lead ++ base.data ++ trail ∧
    (∀ c ∈ lead, IsWhiteSpaceOrLineTerminator c) ∧
    (∀ c ∈ trail, IsWhiteSpaceOrLineTerminator c) ∧
    (∀ c, base.data.head? = some c → ¬ IsWhiteSpaceOrLineTerminator c) ∧
    (∀ c, base.data.getLast? = some c → ¬ IsWhiteSpaceOrLineTerminator c)

/-- The attempt numbered `k` of a call produced the candidate `v`: the draw
`rnd k` selected a pool element, and `v` is the variant lines 62 to 79 build from it. -/
def CandidateAt (hashString : String → String) (pool : List String) (rnd : Nat → Draw)
    (k : Nat) (v : Variant) : Prop :=
  ∃ raw, raw ∈ pool ∧ pool[(rnd k).u % pool.length]? = some raw ∧
    v = mkVariant hashString raw (rnd k)

/-- The loop invariant of `generateUniqueCitations` for a call entered with the
set `usedSet0`. -/
structure LoopInv (hashString : String → String) (pool : List String) (count : Int)
    (rnd : Nat → Draw) (usedSet0 : JsSet) (st : LoopState) : Prop where
  /-- the set is the initial set followed by the accepted hashes, in order -/
  used_eq : st.usedSet = usedSet0 ++ st.chosen.map Variant.hash
  /-- the accepted hashes are pairwise distinct -/
  nodup : (st.chosen.map Variant.hash).Nodup
  /-- no accepted hash was in the initial set -/
  fresh : ∀ v ∈ st.chosen, v.hash ∉ usedSet0
  /-- the attempts stay inside the budget -/
  budget : st.attempts ≤ pool.length * 3
  /-- no more variants than requested -/
  atMost : (st.chosen.length : Int) ≤ max count 0
  /-- each attempt accepts at most one variant -/
  le_attempts : st.chosen.length ≤ st.attempts
  /-- every accepted variant is the candidate of one of the attempts made -/
  origin : ∀ v ∈ st.chosen, ∃ k, k < st.attempts ∧ CandidateAt hashString pool rnd k v
  /-- the hash of every candidate tried so far is in the set -/
  tried : ∀ k, k < st.attempts → ∃ v, CandidateAt hashString pool rnd k v ∧ v.hash ∈ st.usedSet

/-! ## Concrete inputs -/

/-- A registry of 10,001 distinct entries, named after their insertion rank. -/
def c5UsedSet : JsSet := (List.range 10001).map (fun n => toString n)

/-- A registry file of two different hashes. -/
def c6File : List String := ["0123456789ab", "ba9876543210"]

/-- A registry file that lists one hash twice. -/
def c6Repeated : List String := ["0123456789ab", "0123456789ab"]

/-- The pool of the scenario. -/
def c2Pool : List String := ["Citation A", "Citation B"]

/-- One outcome of the random choices of an attempt: the first pool element, the
empty modifier, the empty insertion, and one UUID. -/
def c2Draw : Draw :=
  { u := 0, fullName := "Ann Lee", lastName := "Lee", firstName := "Ann",
    catchPhrase := "Synergy", modifierPick := 4, sentence := "Lorem ipsum.",
    words := "lorem ipsum dolor", insertionPick := 0,
    uuid := "123e4567-e89b-42d3-a456-426614174000" }

/-- The random outcome in which every attempt of the call draws the same values. -/
def c2Rnd : Nat → Draw := fun _ => c2Draw

/-- A stand-in for `hashString` in concrete evaluations: the function that
returns its argument. Like a collision-free digest it gives different texts
different hashes, which is all the evaluations below use. -/
def identityHash : String → String := fun s => s

/-- The hexadecimal digit of a number below 16. -/
def hexChar (d : Nat) : Char := "0123456789abcdef".data.getD d '0'

/-- The value of a hexadecimal digit. -/
def hexVal (c : Char) : Nat := "0123456789abcdef".data.indexOf c

/-- The last group of the UUID numbered `k`: the hexadecimal digits of `k`,
least significant first, filled with zeros to twelve digits. -/
def c8Group (k : Nat) : List Char :=
  (Nat.digits 16 k).map hexChar ++ List.replicate (12 - (Nat.digits 16 k).length) '0'

/-- The UUID numbered `k` of the repeated-run schedule, a version 4 UUID whose
last group encodes `k`. -/
def c8Uuid (k : Nat) : String := "00000000-0000-4000-8000-" ++ String.mk (c8Group k)

/-- The draw numbered `k` of the schedule: the first pool element, no modifier,
no insertion, and the UUID numbered `k`. -/
def c8Draw (k : Nat) : Draw :=
  { u := 0, fullName := "Ann Lee", lastName := "Lee", firstName := "Ann",
    catchPhrase := "Synergy", modifierPick := 4, sentence := "Lorem ipsum.",
    words := "lorem ipsum dolor", insertionPick := 0, uuid := c8Uuid k }

/-- The run numbered `i` of the schedule: its attempts consume the draws
`4 * i`, `4 * i + 1`, and so on. -/
def c8Run (i : Nat) : Run :=
  { citationsPool := c2Pool, rnd := fun k => c8Draw (4 * i + k) }

/-- The schedule: 2501 runs with fresh draws, then one run whose draws are those
of the first run. -/
def c8Runs : List Run := (List.range 2501).map c8Run ++ [c8Run 0]

/-- The candidate variant built from the draw numbered `k`. -/
def c8Variant (hashString : String → String) (k : Nat) : Variant :=
  mkVariant hashString "Citation A" (c8Draw k)

/-- The four variants built from the draws `4 * i` to `4 * i + 3`. -/
def c8Emitted (hashString : String → String) (i : Nat) : List Variant :=
  [c8Variant hashString (4 * i), c8Variant hashString (4 * i + 1),
   c8Variant hashString (4 * i + 2), c8Variant hashString (4 * i + 3)]

/-- The hashes of the candidates numbered `lo` to `hi - 1`, in order. -/
def c8Window (hashString : String → String) (lo hi : Nat) : List String :=
  (List.range' lo (hi - lo)).map (fun k => (c8Variant hashString k).hash)

/-- The registry file after `n` runs of the schedule: the last 10,000 of the
first `4 * n` hashes. -/
def c8File (hashString : String → String) (n : Nat) : List String :=
  c8Window hashString (4 * n - 10000) (4 * n)

/-- A character read as a hexadecimal digit: itself when it is one, and the
digit of its code point modulo 16 otherwise. -/
def toHexChar (c : Char) : Char :=
  if c ∈ "0123456789abcdef".data then c else hexChar (c.toNat % 16)

/-- A stand-in for `hashString` with the shape of the real digest, a string of
twelve hexadecimal digits: the last twelve characters of the text, read as
hexadecimal digits, after twelve leading zeros for a shorter text. -/
def suffixDigest (s : String) : String :=
  String.mk ((((List.replicate 12 '0' ++ s.data).reverse.take 12).reverse).map toHexChar)

/-- The hash function gives the 10,004 candidates of the schedule pairwise
distinct hashes. -/
def C8Distinct (hashString : String → String) : Prop :=
  ∀ j k, j < 10004 → k < 10004 →
    (c8Variant hashString j).hash = (c8Variant hashString k).hash → j = k

/-- Two runs on the scenario pool, the second with draws of its own. -/
def c8TwoRuns : List Run := [c8Run 0, c8Run 1]

/-! ## The loop -/

section Loop

variable (hashString : String → String) (pool : List String) (count : Int) (rnd : Nat → Draw)

theorem pool_index_some {pool : List String} (u : Nat) (h : 0 < pool.length) :
    ∃ raw, pool[u % pool.length]? = some raw ∧ raw ∈ pool := by
  have hlt : u % pool.length < pool.length := Nat.mod_lt u h
  exact ⟨pool[u % pool.length], List.getElem?_eq_getElem hlt, List.getElem_mem hlt⟩

theorem loopCond_true_iff (st : LoopState) :
    loopCond pool count st = true ↔
      ((st.chosen.length : Int) < count ∧ st.attempts < pool.length * 3) := by
  simp [loopCond]

theorem loopCond_false_iff (st : LoopState) :
    loopCond pool count st = false ↔
      (count ≤ (st.chosen.length : Int) ∨ pool.length * 3 ≤ st.attempts) := by
  rw [← Bool.not_eq_true, loopCond_true_iff]
  omega

/-- The body never raises inside the budget: it reads a pool element, and either
accepts the candidate (its hash is new) or leaves result and set as they are. -/
theorem loopBody_spec (d : Draw) (st : LoopState) (h : st.attempts < pool.length * 3) :
    ∃ raw, raw ∈ pool ∧ pool[d.u % pool.length]? = some raw ∧
      (((mkVariant hashString raw d).hash ∉ st.usedSet ∧
          loopBody hashString pool d st = .ok
            { attempts := st.attempts + 1, chosen := st.chosen ++ [mkVariant hashString raw d],
              usedSet := st.usedSet ++ [(mkVariant hashString raw d).hash] }) ∨
       ((mkVariant hashString raw d).hash ∈ st.usedSet ∧
          loopBody hashString pool d st = .ok
            { attempts := st.attempts + 1, chosen := st.chosen, usedSet := st.usedSet })) := by
  have hpos : 0 < pool.length := by omega
  obtain ⟨raw, hraw, hmem⟩ := pool_index_some d.u hpos
  refine ⟨raw, hmem, hraw, ?_⟩
  by_cases hin : (mkVariant hashString raw d).hash ∈ st.usedSet
  · right
    refine ⟨hin, ?_⟩
    simp [loopBody, hraw, JsSet.has, hin]
  · left
    refine ⟨hin, ?_⟩
    simp [loopBody, hraw, JsSet.has, JsSet.add, hin]

theorem whileLoop_exit (fuel : Nat) (st : LoopState) (h : loopCond pool count st = false) :
    whileLoop hashString pool count rnd fuel st = .ok st := by
  unfold whileLoop
  simp [h]

theorem whileLoop_enter (fuel : Nat) (st : LoopState) (h : loopCond pool count st = true) :
    whileLoop hashString pool count rnd (fuel + 1) st =
      match loopBody hashString pool (rnd st.attempts) st with
      | .error e => .error e
      | .ok st1 => whileLoop hashString pool count rnd fuel st1 := by
  rw [whileLoop]
  simp [h]

/-- Enough fuel gives a result: the loop returns a state whenever the fuel covers
what is left of the attempt budget. -/
theorem whileLoop_total :
    ∀ (fuel : Nat) (st : LoopState), pool.length * 3 ≤ fuel + st.attempts →
      ∃ st1, whileLoop hashString pool count rnd fuel st = .ok st1 := by
  intro fuel
  induction fuel with
  | zero =>
    intro st hfuel
    refine ⟨st, whileLoop_exit hashString pool count rnd 0 st ?_⟩
    rw [loopCond_false_iff]
    omega
  | succ fuel ih =>
    intro st hfuel
    by_cases hc : loopCond pool count st = true
    · have hlt := ((loopCond_true_iff pool count st).1 hc).2
      rw [whileLoop_enter hashString pool count rnd fuel st hc]
      obtain ⟨raw, -, -, h | h⟩ := loopBody_spec hashString pool (rnd st.attempts) st hlt
      · rw [h.2]
        exact ih _ (by simp only; omega)
      · rw [h.2]
        exact ih _ (by simp only; omega)
    · rw [Bool.not_eq_true] at hc
      exact ⟨st, whileLoop_exit hashString pool count rnd _ st hc⟩

/-- Invariant rule of the loop: a predicate that holds before the loop and that
every iteration preserves holds of the final state, where the loop condition is false. -/
theorem whileLoop_invariant (P : LoopState → Prop)
    (hstep : ∀ st st1, loopCond pool count st = true → P st →
      loopBody hashString pool (rnd st.attempts) st = .ok st1 → P st1) :
    ∀ (fuel : Nat) (st st2 : LoopState), P st →
      whileLoop hashString pool count rnd fuel st = .ok st2 →
      P st2 ∧ loopCond pool count st2 = false := by
  intro fuel
  induction fuel with
  | zero =>
    intro st st2 hP hrun
    by_cases hc : loopCond pool count st = true
    · unfold whileLoop at hrun
      simp [hc] at hrun
    · rw [Bool.not_eq_true] at hc
      rw [whileLoop_exit hashString pool count rnd 0 st hc] at hrun
      cases hrun
      exact ⟨hP, hc⟩
  | succ fuel ih =>
    intro st st2 hP hrun
    by_cases hc : loopCond pool count st = true
    · rw [whileLoop_enter hashString pool count rnd fuel st hc] at hrun
      cases hb : loopBody hashString pool (rnd st.attempts) st with
      | error e => rw [hb] at hrun; cases hrun
      | ok st1 =>
        rw [hb] at hrun
        exact ih st1 st2 (hstep st st1 hc hP hb) hrun
    · rw [Bool.not_eq_true] at hc
      rw [whileLoop_exit hashString pool count rnd _ st hc] at hrun
      cases hrun
      exact ⟨hP, hc⟩

end Loop

section Invariant

variable (hashString : String → String) (pool : List String) (count : Int) (rnd : Nat → Draw)

theorem loopInv_init (usedSet0 : JsSet) :
    LoopInv hashString pool count rnd usedSet0
      { attempts := 0, chosen := [], usedSet := usedSet0 } where
  used_eq := by simp
  nodup := by simp
  fresh := by simp
  budget := by simp
  atMost := by simp
  le_attempts := by simp
  origin := by simp
  tried := by simp

theorem loopInv_step (usedSet0 : JsSet) (st st1 : LoopState)
    (hc : loopCond pool count st = true)
    (hinv : LoopInv hashString pool count rnd usedSet0 st)
    (hb : loopBody hashString pool (rnd st.attempts) st = .ok st1) :
    LoopInv hashString pool count rnd usedSet0 st1 := by
  obtain ⟨hlen, hlt⟩ := (loopCond_true_iff pool count st).1 hc
  obtain ⟨raw, hmem, hraw, h | h⟩ := loopBody_spec hashString pool (rnd st.attempts) st hlt
  · obtain ⟨hnew, heq⟩ := h
    rw [heq] at hb
    cases hb
    have hnew1 := hnew
    rw [hinv.used_eq, List.mem_append, not_or] at hnew1
    have hcand : CandidateAt hashString pool rnd st.attempts
        (mkVariant hashString raw (rnd st.attempts)) := ⟨raw, hmem, hraw, rfl⟩
    refine ⟨?_, ?_, ?_, ?_, ?_, ?_, ?_, ?_⟩
    · simp [hinv.used_eq]
    · rw [List.map_append, List.nodup_append]
      refine ⟨hinv.nodup, by simp, ?_⟩
      intro a ha hb
      simp only [List.map_cons, List.map_nil, List.mem_singleton] at hb
      subst hb
      exact hnew1.2 ha
    · intro v hv
      rcases List.mem_append.1 hv with hv | hv
      · exact hinv.fresh v hv
      · rw [List.mem_singleton] at hv
        subst hv
        exact hnew1.1
    · simp only; omega
    · simp only [List.length_append, List.length_singleton]
      push_cast
      have := hinv.atMost
      omega
    · simp only [List.length_append, List.length_singleton]
      have := hinv.le_attempts
      omega
    · intro v hv
      rcases List.mem_append.1 hv with hv | hv
      · obtain ⟨k, hk, hkc⟩ := hinv.origin v hv
        exact ⟨k, by simp only; omega, hkc⟩
      · rw [List.mem_singleton] at hv
        subst hv
        exact ⟨st.attempts, by simp only; omega, hcand⟩
    · intro k hk
      simp only at hk
      by_cases hk1 : k < st.attempts
      · obtain ⟨v, hv, hvin⟩ := hinv.tried k hk1
        exact ⟨v, hv, List.mem_append_left _ hvin⟩
      · have hke : k = st.attempts := by omega
        subst hke
        exact ⟨_, hcand, by simp⟩
  · obtain ⟨hold, heq⟩ := h
    rw [heq] at hb
    cases hb
    have hcand : CandidateAt hashString pool rnd st.attempts
        (mkVariant hashString raw (rnd st.attempts)) := ⟨raw, hmem, hraw, rfl⟩
    refine ⟨hinv.used_eq, hinv.nodup, hinv.fresh, ?_, hinv.atMost, ?_, ?_, ?_⟩
    · simp only; omega
    · have := hinv.le_attempts
      simp only; omega
    · intro v hv
      obtain ⟨k, hk, hkc⟩ := hinv.origin v hv
      exact ⟨k, by simp only; omega, hkc⟩
    · intro k hk
      simp only at hk
      by_cases hk1 : k < st.attempts
      · exact hinv.tried k hk1
      · have hke : k = st.attempts := by omega
        subst hke
        exact ⟨_, hcand, hold⟩

/-- The call returns: `runLoop` yields a final state, the invariant holds of it
and the loop condition is false there. -/
theorem runLoop_spec (usedSet0 : JsSet) :
    ∃ st, runLoop hashString pool usedSet0 count rnd = .ok st ∧
      LoopInv hashString pool count rnd usedSet0 st ∧ loopCond pool count st = false := by
  obtain ⟨st, hst⟩ := whileLoop_total hashString pool count rnd (pool.length * 3)
    { attempts := 0, chosen := [], usedSet := usedSet0 } (by simp)
  refine ⟨st, hst, ?_⟩
  exact whileLoop_invariant hashString pool count rnd
    (LoopInv hashString pool count rnd usedSet0)
    (fun s s1 hc hP hb => loopInv_step hashString pool count rnd usedSet0 s s1 hc hP hb)
    _ _ st (loopInv_init hashString pool count rnd usedSet0) hst

/-- The function returns the `chosen` and `usedSet` of the final loop state. -/
theorem generateUniqueCitations_spec (usedSet0 : JsSet) :
    ∃ st, generateUniqueCitations hashString pool usedSet0 count rnd =
        .ok (st.chosen, st.usedSet) ∧
      runLoop hashString pool usedSet0 count rnd = .ok st ∧
      LoopInv hashString pool count rnd usedSet0 st ∧ loopCond pool count st = false := by
  obtain ⟨st, hrun, hinv, hc⟩ := runLoop_spec hashString pool count rnd usedSet0
  exact ⟨st, by simp [generateUniqueCitations, hrun], hrun, hinv, hc⟩

end Invariant

section Calls

variable (hashString : String → String) (pool : List String)

theorem arrayElement_mem (xs : List String) (pick : Nat) (h : xs ≠ []) :
    arrayElement xs pick ∈ xs := by
  have hpos : 0 < xs.length := List.length_pos.2 h
  have hlt : pick % xs.length < xs.length := Nat.mod_lt pick hpos
  unfold arrayElement
  rw [List.getD_eq_getElem _ _ hlt]
  exact List.getElem_mem hlt

/-- Sequential calls on one set all return, the final set is the initial one
followed by every returned hash, and these hashes are new and pairwise distinct. -/
theorem callSeq_spec (calls : List Call) :
    ∀ usedSet0 : JsSet, ∃ results usedSet1,
      callSeq hashString pool usedSet0 calls = .ok (results, usedSet1) ∧
      usedSet1 = usedSet0 ++ results.flatten.map Variant.hash ∧
      (results.flatten.map Variant.hash).Nodup ∧
      ∀ v ∈ results.flatten, v.hash ∉ usedSet0 := by
  induction calls with
  | nil =>
    intro usedSet0
    exact ⟨[], usedSet0, rfl, by simp, by simp, by simp⟩
  | cons c cs ih =>
    intro usedSet0
    obtain ⟨st, hgen, -, hinv, -⟩ :=
      generateUniqueCitations_spec hashString pool c.count c.rnd usedSet0
    obtain ⟨rest, usedSet2, hrest, hset, hnodup, hfresh⟩ := ih st.usedSet
    refine ⟨st.chosen :: rest, usedSet2, ?_, ?_, ?_, ?_⟩
    · simp [callSeq, hgen, hrest]
    · rw [hset, hinv.used_eq]
      simp
    · rw [List.flatten_cons, List.map_append, List.nodup_append]
      refine ⟨hinv.nodup, hnodup, ?_⟩
      intro a ha hb
      obtain ⟨w, hw, rfl⟩ := List.mem_map.1 hb
      apply hfresh w hw
      rw [hinv.used_eq]
      exact List.mem_append_right _ ha
    · intro v hv
      rw [List.flatten_cons] at hv
      rcases List.mem_append.1 hv with hv | hv
      · exact hinv.fresh v hv
      · intro hin
        apply hfresh v hv
        rw [hinv.used_eq]
        exact List.mem_append_left _ hin

end Calls

/-! ## The claims about generateUniqueCitations -/

/-- C1: for every pool, every initial registry and every sequence of calls of
`generateUniqueCitations` sharing that registry (any counts, any random draws),
all calls return, the hashes of all returned variants are pairwise distinct,
and none of them is in the initial registry. -/
theorem C1_uniqueness_across_calls (hashString : String → String) (pool : List String)
    (usedSet0 : JsSet) (calls : List Call) :
    ∃ results usedSet1, callSeq hashString pool usedSet0 calls = .ok (results, usedSet1) ∧
      (results.flatten.map Variant.hash).Nodup ∧
      ∀ v ∈ results.flatten, v.hash ∉ usedSet0 := by
  obtain ⟨results, usedSet1, hrun, -, hnodup, hfresh⟩ :=
    callSeq_spec hashString pool calls usedSet0
  exact ⟨results, usedSet1, hrun, hnodup, hfresh⟩

/-- C3: for every pool, registry, non-negative count and random draws, the call
returns after at most `3 * pool.length` attempts with at most `count` variants;
when fewer than `count` variants were accepted the whole budget of
`3 * pool.length` attempts was used, and the call still returns normally. -/
theorem C3_bounded_retry (hashString : String → String) (pool : List String)
    (usedSet0 : JsSet) (count : Int) (rnd : Nat → Draw) (hcount : 0 ≤ count) :
    ∃ st, runLoop hashString pool usedSet0 count rnd = .ok st ∧
      generateUniqueCitations hashString pool usedSet0 count rnd =
        .ok (st.chosen, st.usedSet) ∧
      st.attempts ≤ 3 * pool.length ∧
      (st.chosen.length : Int) ≤ count ∧
      ((st.chosen.length : Int) < count → st.attempts = 3 * pool.length) ∧
      (st.attempts < 3 * pool.length → (st.chosen.length : Int) = count) := by
  obtain ⟨st, hgen, hrun, hinv, hc⟩ :=
    generateUniqueCitations_spec hashString pool count rnd usedSet0
  have hexit := (loopCond_false_iff pool count st).1 hc
  have hb := hinv.budget
  have ha := hinv.atMost
  refine ⟨st, hrun, hgen, by omega, by omega, ?_, ?_⟩
  · intro hlt
    omega
  · intro hlt
    omega

/-- C4: with the empty pool the call returns the empty array and leaves the
registry as it was, for every registry, count and random draws; no attempt is
made (the final attempt counter is 0), so line 62 is not reached, where the
read of a pool element would raise. -/
theorem C4_empty_pool (hashString : String → String) (usedSet0 : JsSet) (count : Int)
    (rnd : Nat → Draw) :
    generateUniqueCitations hashString [] usedSet0 count rnd = .ok ([], usedSet0) ∧
    runLoop hashString [] usedSet0 count rnd =
      .ok { attempts := 0, chosen := [], usedSet := usedSet0 } ∧
    ∀ (d : Draw) (st : LoopState), loopBody hashString [] d st = .error .typeError := by
  have hrun : runLoop hashString [] usedSet0 count rnd =
      .ok { attempts := 0, chosen := [], usedSet := usedSet0 } := by
    unfold runLoop
    exact whileLoop_exit hashString [] count rnd _ _ (by simp [loopCond])
  refine ⟨by simp [generateUniqueCitations, hrun], hrun, ?_⟩
  intro d st
  simp [loopBody]

/-- C7: for every pool, initial registry and count, the call returns a result
and a registry that is the initial registry followed by exactly the hashes of
the result (so nothing is removed and membership is the union); one attempt
either finds the hash of its candidate absent, appends it to the registry and
the candidate to the result, or finds it present and changes neither. -/
theorem C7_registry_frame (hashString : String → String) (pool : List String)
    (usedSet0 : JsSet) (count : Int) (rnd : Nat → Draw) :
    (∃ result usedSet1,
      generateUniqueCitations hashString pool usedSet0 count rnd = .ok (result, usedSet1) ∧
      usedSet1 = usedSet0 ++ result.map Variant.hash ∧
      (∀ h, h ∈ usedSet1 ↔ h ∈ usedSet0 ∨ h ∈ result.map Variant.hash) ∧
      (result.map Variant.hash).Nodup ∧ ∀ v ∈ result, v.hash ∉ usedSet0) ∧
    ∀ (d : Draw) (st st1 : LoopState), loopBody hashString pool d st = .ok st1 →
      ∃ raw, pool[d.u % pool.length]? = some raw ∧ st1.attempts = st.attempts + 1 ∧
        ((mkVariant hashString raw d).hash ∉ st.usedSet →
          st1.usedSet = st.usedSet ++ [(mkVariant hashString raw d).hash] ∧
          st1.chosen = st.chosen ++ [mkVariant hashString raw d]) ∧
        ((mkVariant hashString raw d).hash ∈ st.usedSet →
          st1.usedSet = st.usedSet ∧ st1.chosen = st.chosen) := by
  constructor
  · obtain ⟨st, hgen, -, hinv, -⟩ :=
      generateUniqueCitations_spec hashString pool count rnd usedSet0
    refine ⟨st.chosen, st.usedSet, hgen, hinv.used_eq, ?_, hinv.nodup, hinv.fresh⟩
    intro h
    rw [hinv.used_eq, List.mem_append]
  · intro d st st1 hb
    cases hraw : pool[d.u % pool.length]? with
    | none => simp [loopBody, hraw] at hb
    | some raw =>
      refine ⟨raw, rfl, ?_⟩
      by_cases hin : (mkVariant hashString raw d).hash ∈ st.usedSet
      · simp [loopBody, hraw, JsSet.has, hin] at hb
        subst hb
        simp [hin]
      · simp [loopBody, hraw, JsSet.has, JsSet.add, hin] at hb
        subst hb
        simp [hin]

/-! ## Trimming -/

theorem isJsWhitespace_iff (c : Char) :
    isJsWhitespace c = true ↔ IsWhiteSpaceOrLineTerminator c := by
  simp only [isJsWhitespace, IsWhiteSpaceOrLineTerminator, Bool.or_eq_true, Bool.and_eq_true,
    decide_eq_true_eq, List.mem_cons, List.mem_singleton, List.not_mem_nil, or_false]
  omega

/-- What `jsTrim` removes: the longest run of white space and line terminators
at the start of the string and the longest one at its end, and nothing else. -/
theorem jsTrim_isTrimOf (raw : String) : IsTrimOf raw (jsTrim raw) := by
  have hsplit : raw.data = raw.data.takeWhile isJsWhitespace ++
      ((raw.data.dropWhile isJsWhitespace).reverse.dropWhile isJsWhitespace).reverse ++
      ((raw.data.dropWhile isJsWhitespace).reverse.takeWhile isJsWhitespace).reverse := by
    have h1 := List.takeWhile_append_dropWhile isJsWhitespace raw.data
    have h2 := List.takeWhile_append_dropWhile isJsWhitespace
      (raw.data.dropWhile isJsWhitespace).reverse
    have h3 := congrArg List.reverse h2
    rw [List.reverse_append, List.reverse_reverse] at h3
    rw [List.append_assoc, h3, h1]
  refine ⟨raw.data.takeWhile isJsWhitespace,
    ((raw.data.dropWhile isJsWhitespace).reverse.takeWhile isJsWhitespace).reverse,
    hsplit, ?_, ?_, ?_, ?_⟩
  · intro c hc
    exact (isJsWhitespace_iff c).1 (List.mem_takeWhile_imp hc)
  · intro c hc
    exact (isJsWhitespace_iff c).1 (List.mem_takeWhile_imp (List.mem_reverse.1 hc))
  · intro c hc hws
    have hc1 : (((raw.data.dropWhile isJsWhitespace).reverse.dropWhile
        isJsWhitespace).reverse).head? = some c := hc
    have hmid : raw.data.dropWhile isJsWhitespace =
        ((raw.data.dropWhile isJsWhitespace).reverse.dropWhile isJsWhitespace).reverse ++
        ((raw.data.dropWhile isJsWhitespace).reverse.takeWhile isJsWhitespace).reverse := by
      have h2 := List.takeWhile_append_dropWhile isJsWhitespace
        (raw.data.dropWhile isJsWhitespace).reverse
      have h3 := congrArg List.reverse h2
      rw [List.reverse_append, List.reverse_reverse] at h3
      exact h3.symm
    have hhead : (raw.data.dropWhile isJsWhitespace).head? = some c := by
      rw [hmid, List.head?_append, hc1]
      rfl
    have hnot := List.head?_dropWhile_not isJsWhitespace raw.data
    rw [hhead] at hnot
    simp only at hnot
    rw [(isJsWhitespace_iff c).2 hws] at hnot
    exact absurd hnot (by decide)
  · intro c hc hws
    have hc1 : (((raw.data.dropWhile isJsWhitespace).reverse.dropWhile
        isJsWhitespace).reverse).getLast? = some c := hc
    rw [List.getLast?_reverse] at hc1
    have hnot := List.head?_dropWhile_not isJsWhitespace
      (raw.data.dropWhile isJsWhitespace).reverse
    rw [hc1] at hnot
    simp only at hnot
    rw [(isJsWhitespace_iff c).2 hws] at hnot
    exact absurd hnot (by decide)

/-- The function `jsTrim` on sample fragments: spaces, a tab, a line feed, a
no-break space and an ideographic space around the text go, inner spaces stay. -/
theorem jsTrim_samples :
    jsTrim "  Citation A \n" = "Citation A" ∧
    jsTrim "\t Citation  B　\r\n" = "Citation  B" ∧
    jsTrim "Citation A" = "Citation A" ∧
    jsTrim " \n " = "" := by
  decide

/-- C10: every returned variant has `hash = hashString text` and
`id = hashString uuid` for the UUID of the attempt that produced it, and its
text is `base ++ " " ++ insertion ++ " " ++ attribution ++ " — ID " ++ id` when
the insertion picked in that attempt is not empty and
`base ++ " " ++ attribution ++ " — ID " ++ id` when it is, where `base` is a
pool element with its surrounding white space trimmed (the pool element is
`base` between two runs of ECMAScript white space and line terminators, and
`base` neither starts nor ends with one), the insertion is one of the three
candidates of line 71 and the attribution one of the five of line 64. -/
theorem C10_variant_shape (hashString : String → String) (pool : List String)
    (usedSet0 : JsSet) (count : Int) (rnd : Nat → Draw) :
    ∃ result usedSet1,
      generateUniqueCitations hashString pool usedSet0 count rnd = .ok (result, usedSet1) ∧
      ∀ v ∈ result, ∃ k raw base insertion attribution,
        k < 3 * pool.length ∧ raw ∈ pool ∧
        base = jsTrim raw ∧ IsTrimOf raw base ∧
        insertion ∈ ["", (rnd k).sentence, (rnd k).words] ∧
        attribution ∈ ["», selon " ++ (rnd k).fullName, "», rappelle " ++ (rnd k).lastName,
          "», souligne " ++ (rnd k).firstName, "», " ++ (rnd k).catchPhrase, ""] ∧
        v.hash = hashString v.text ∧
        v.id = hashString (rnd k).uuid ∧
        (insertion ≠ "" →
          v.text = base ++ " " ++ insertion ++ " " ++ attribution ++ " — ID " ++ v.id) ∧
        (insertion = "" →
          v.text = base ++ " " ++ attribution ++ " — ID " ++ v.id) := by
  obtain ⟨st, hgen, -, hinv, -⟩ :=
    generateUniqueCitations_spec hashString pool count rnd usedSet0
  refine ⟨st.chosen, st.usedSet, hgen, ?_⟩
  intro v hv
  obtain ⟨k, hk, raw, hmem, -, rfl⟩ := hinv.origin v hv
  have hb := hinv.budget
  refine ⟨k, raw, jsTrim raw, arrayElement (insertions (rnd k)) (rnd k).insertionPick,
    arrayElement (modifiers (rnd k)) (rnd k).modifierPick, by omega, hmem, rfl,
    jsTrim_isTrimOf raw,
    arrayElement_mem _ _ (by simp [insertions]), arrayElement_mem _ _ (by simp [modifiers]),
    rfl, rfl, ?_, ?_⟩
  · intro hne
    simp [mkVariant, composeText, hne]
  · intro he
    simp [mkVariant, composeText, he]

/-! ## Persisting and loading the registry -/

theorem persisted_eq_drop (usedSet : JsSet) :
    persisted usedSet = usedSet.drop (usedSet.length - 10000) := by
  have h : (if (-10000 : Int) < 0 then max ((usedSet.length : Int) + (-10000)) 0
      else min (-10000) (usedSet.length : Int)).toNat = usedSet.length - 10000 := by
    rw [if_pos (by decide)]
    omega
  show usedSet.drop (if (-10000 : Int) < 0 then max ((usedSet.length : Int) + (-10000)) 0
      else min (-10000) (usedSet.length : Int)).toNat = _
  rw [h]

theorem foldl_add_nodup (xs : List String) :
    ∀ acc : JsSet, (acc ++ xs).Nodup → xs.foldl JsSet.add acc = acc ++ xs := by
  induction xs with
  | nil => intro acc _; simp
  | cons x xs ih =>
    intro acc h
    have hx : x ∉ acc := by
      intro hin
      rw [List.nodup_append] at h
      exact h.2.2 hin (List.mem_cons_self x xs)
    have h1 : (acc ++ [x] ++ xs).Nodup := by simpa using h
    rw [List.foldl_cons]
    simp only [JsSet.add, hx, if_false]
    rw [ih (acc ++ [x]) h1]
    simp

theorem ofArray_nodup_eq (xs : List String) (h : xs.Nodup) : JsSet.ofArray xs = xs := by
  unfold JsSet.ofArray
  rw [foldl_add_nodup xs [] (by simpa using h)]
  simp

theorem foldl_add_spec (xs : List String) :
    ∀ acc : JsSet, acc.Nodup →
      (xs.foldl JsSet.add acc).Nodup ∧ ∀ x, x ∈ xs.foldl JsSet.add acc ↔ x ∈ acc ∨ x ∈ xs := by
  induction xs with
  | nil => intro acc h; simp [h]
  | cons y ys ih =>
    intro acc h
    rw [List.foldl_cons]
    by_cases hy : y ∈ acc
    · simp only [JsSet.add, hy, if_true]
      obtain ⟨h1, h2⟩ := ih acc h
      refine ⟨h1, ?_⟩
      intro x
      rw [h2 x, List.mem_cons]
      constructor
      · rintro (hx | hx)
        · exact Or.inl hx
        · exact Or.inr (Or.inr hx)
      · rintro (hx | hx | hx)
        · exact Or.inl hx
        · exact Or.inl (hx ▸ hy)
        · exact Or.inr hx
    · simp only [JsSet.add, hy, if_false]
      have hn : (acc ++ [y]).Nodup := by
        rw [List.nodup_append]
        refine ⟨h, by simp, ?_⟩
        intro a ha hb
        rw [List.mem_singleton] at hb
        exact hy (hb ▸ ha)
      obtain ⟨h1, h2⟩ := ih (acc ++ [y]) hn
      refine ⟨h1, ?_⟩
      intro x
      rw [h2 x, List.mem_cons, List.mem_append, List.mem_singleton]
      tauto

theorem ofArray_nodup (xs : List String) : (JsSet.ofArray xs).Nodup :=
  (foldl_add_spec xs [] List.nodup_nil).1

theorem mem_ofArray (xs : List String) (x : String) : x ∈ JsSet.ofArray xs ↔ x ∈ xs := by
  unfold JsSet.ofArray
  rw [(foldl_add_spec xs [] List.nodup_nil).2 x]
  simp

/-- C5: a registry of more than 10,000 hashes is persisted as exactly 10,000
entries, namely the registry in insertion order without its oldest
`length - 10000` entries; a registry of at most 10,000 hashes is persisted
whole, in insertion order. -/
theorem C5_truncation_on_save (usedSet : JsSet) :
    (10000 < usedSet.length →
      (persisted usedSet).length = 10000 ∧
      persisted usedSet = usedSet.drop (usedSet.length - 10000) ∧
      ∃ dropped, usedSet = dropped ++ persisted usedSet ∧
        dropped = usedSet.take (usedSet.length - 10000) ∧
        dropped.length = usedSet.length - 10000) ∧
    (usedSet.length ≤ 10000 → persisted usedSet = usedSet) := by
  rw [persisted_eq_drop]
  constructor
  · intro h
    refine ⟨?_, rfl, usedSet.take (usedSet.length - 10000), ?_, rfl, ?_⟩
    · rw [List.length_drop]
      omega
    · exact (List.take_append_drop _ _).symm
    · rw [List.length_take]
      omega
  · intro h
    have h0 : usedSet.length - 10000 = 0 := by omega
    rw [h0, List.drop_zero]

/-- A registry of 10,001 entries loses exactly its oldest entry, `"0"`, on save. -/
theorem C5_truncation_on_save_witness :
    10000 < c5UsedSet.length ∧ (persisted c5UsedSet).length = 10000 ∧
      c5UsedSet = ["0"] ++ persisted c5UsedSet := by
  have hlen : c5UsedSet.length = 10001 := by simp [c5UsedSet]
  have hlt : 10000 < c5UsedSet.length := by omega
  obtain ⟨h1, -, dropped, h3, h4, -⟩ := (C5_truncation_on_save c5UsedSet).1 hlt
  refine ⟨hlt, h1, ?_⟩
  have hd : dropped = ["0"] := by
    rw [h4, hlen]
    show List.take 1 c5UsedSet = ["0"]
    unfold c5UsedSet
    rw [← List.map_take, List.take_range]
    rfl
  rw [← hd]
  exact h3

/-- C6, amended: a registry file that holds at most 10,000 hash strings, none
of them twice, is written back unchanged when it is loaded with `new Set` and
saved at once. -/
theorem C6_roundtrip_distinct (file : List String) (hdistinct : file.Nodup)
    (hlen : file.length ≤ 10000) :
    persisted (JsSet.ofArray file) = file := by
  rw [ofArray_nodup_eq file hdistinct, persisted_eq_drop]
  have h0 : file.length - 10000 = 0 := by omega
  rw [h0, List.drop_zero]

theorem C6_roundtrip_distinct_witness :
    c6File.Nodup ∧ c6File.length ≤ 10000 ∧ persisted (JsSet.ofArray c6File) = c6File :=
  ⟨by decide, by decide, C6_roundtrip_distinct c6File (by decide) (by decide)⟩

/-- C6 as stated fails: a file of two hash strings that are the same string is
a list of at most 10,000 hash strings, and it is written back as one entry. -/
theorem C6_counterexample :
    c6Repeated.length ≤ 10000 ∧ persisted (JsSet.ofArray c6Repeated) = ["0123456789ab"] ∧
      persisted (JsSet.ofArray c6Repeated) ≠ c6Repeated := by
  decide

theorem loadUsedSet_parsed (j : Json) :
    loadUsedSet (.parsed j) = if truthy j = true then newSet j else .ok [] := by
  unfold loadUsedSet orEmptyArray loadJson
  by_cases h : truthy j = true
  · simp [h]
  · simp [h, newSet]

/-- C9, amended: a registry file that is missing, unreadable or not JSON loads
as the empty set, and so does a file whose JSON value is falsy; a file whose
JSON value is an array or a string loads as a set; the load returns a set
exactly in these cases, and raises a `TypeError` for every other JSON value. -/
theorem C9_load_degrades :
    loadUsedSet .missing = .ok [] ∧ loadUsedSet .unreadable = .ok [] ∧
    loadUsedSet .notJson = .ok [] ∧
    (∀ j, truthy j = false → loadUsedSet (.parsed j) = .ok []) ∧
    (∀ items, ∃ s, loadUsedSet (.parsed (.arr items)) = .ok s) ∧
    (∀ str, ∃ s, loadUsedSet (.parsed (.str str)) = .ok s) ∧
    (∀ j, (∃ s, loadUsedSet (.parsed j) = .ok s) ∨
      loadUsedSet (.parsed j) = .error .typeError) ∧
    (∀ j, loadUsedSet (.parsed j) = .error .typeError ↔
      (truthy j = true ∧ (∀ items, j ≠ .arr items) ∧ ∀ str, j ≠ .str str)) := by
  have hstr : ∀ str, ∃ s, loadUsedSet (.parsed (.str str)) = .ok s := by
    intro str
    rw [loadUsedSet_parsed]
    by_cases h : truthy (.str str) = true
    · rw [if_pos h]
      exact ⟨_, rfl⟩
    · rw [if_neg h]
      exact ⟨_, rfl⟩
  have harr : ∀ items, ∃ s, loadUsedSet (.parsed (.arr items)) = .ok s := by
    intro items
    rw [loadUsedSet_parsed]
    exact ⟨_, rfl⟩
  refine ⟨rfl, rfl, rfl, ?_, harr, hstr, ?_, ?_⟩
  · intro j hj
    rw [loadUsedSet_parsed]
    simp [hj]
  · intro j
    cases j with
    | null => exact Or.inl ⟨_, rfl⟩
    | bool b =>
      cases b
      · exact Or.inl ⟨_, rfl⟩
      · exact Or.inr rfl
    | num bits =>
      rw [loadUsedSet_parsed]
      by_cases h : truthy (.num bits) = true
      · rw [if_pos h]
        exact Or.inr rfl
      · rw [if_neg h]
        exact Or.inl ⟨_, rfl⟩
    | str s => exact Or.inl (hstr s)
    | arr items => exact Or.inl (harr items)
    | obj fields => exact Or.inr rfl
  · intro j
    rw [loadUsedSet_parsed]
    cases j with
    | null => simp [truthy]
    | bool b => cases b <;> simp [truthy, newSet]
    | num bits =>
      by_cases h : truthy (.num bits) = true
      · simp [h, newSet]
      · simp [h]
    | str s =>
      by_cases h : truthy (.str s) = true
      · simp [h, newSet]
      · simp [h]
    | arr items => simp [truthy, newSet]
    | obj fields => simp [truthy, newSet]

/-- C9 as stated fails: a registry file that holds the empty JSON object, or the
JSON value `true`, parses, and building the set from it raises a `TypeError`. -/
theorem C9_counterexample :
    loadUsedSet (.parsed (.obj [])) = .error .typeError ∧
    loadUsedSet (.parsed (.bool true)) = .error .typeError := by
  exact ⟨rfl, rfl⟩

/-! ## The scenario of two citations -/

theorem candidateAt_unique (hashString : String → String) (pool : List String)
    (rnd : Nat → Draw) (k : Nat) (v w : Variant)
    (hv : CandidateAt hashString pool rnd k v) (hw : CandidateAt hashString pool rnd k w) :
    v = w := by
  obtain ⟨raw, -, hraw, rfl⟩ := hv
  obtain ⟨raw1, -, hraw1, rfl⟩ := hw
  rw [hraw] at hraw1
  cases hraw1
  rfl

theorem three_le_length_of_mem (l : List String) (a b c : String) (ha : a ∈ l) (hb : b ∈ l)
    (hc : c ∈ l) (hab : a ≠ b) (hac : a ≠ c) (hbc : b ≠ c) : 3 ≤ l.length := by
  have hnodup : [a, b, c].Nodup := by simp [hab, hac, hbc]
  have hsub : [a, b, c] ⊆ l := by
    intro x hx
    simp only [List.mem_cons, List.mem_singleton, List.not_mem_nil, or_false] at hx
    rcases hx with rfl | rfl | rfl <;> assumption
  exact (List.subperm_of_subset hnodup hsub).length_le

theorem composeText_starts (base insertion modifier uid : String) :
    (base ++ " ").data <+: (composeText base insertion modifier uid).data := by
  unfold composeText
  split
  · simp only [String.data_append, List.append_assoc]
    exact ⟨_, List.append_assoc _ _ _⟩
  · simp only [String.data_append, List.append_assoc]
    exact ⟨_, List.append_assoc _ _ _⟩

/-- C2, amended: for every outcome of the random choices the call on the pool
`["Citation A", "Citation B"]` with the empty registry and `count = 3` returns
at most 3 variants, and exactly 3 precisely when three of its six attempts
produce candidates with pairwise distinct hashes; every returned text starts
with `"Citation A "` or `"Citation B "`, the returned hashes are pairwise
distinct, and the registry after the call holds exactly the returned hashes. -/
theorem C2_scenario (hashString : String → String) (rnd : Nat → Draw) :
    ∃ result usedSet1,
      generateUniqueCitations hashString ["Citation A", "Citation B"] [] 3 rnd =
        .ok (result, usedSet1) ∧
      result.length ≤ 3 ∧
      (result.length = 3 ↔ ∃ k1 k2 k3 v1 v2 v3, k1 < 6 ∧ k2 < 6 ∧ k3 < 6 ∧
        CandidateAt hashString ["Citation A", "Citation B"] rnd k1 v1 ∧
        CandidateAt hashString ["Citation A", "Citation B"] rnd k2 v2 ∧
        CandidateAt hashString ["Citation A", "Citation B"] rnd k3 v3 ∧
        v1.hash ≠ v2.hash ∧ v1.hash ≠ v3.hash ∧ v2.hash ≠ v3.hash) ∧
      (∀ v ∈ result, "Citation A ".data <+: v.text.data ∨ "Citation B ".data <+: v.text.data) ∧
      (result.map Variant.hash).Nodup ∧
      usedSet1 = result.map Variant.hash := by
  obtain ⟨st, hgen, -, hinv, hc⟩ :=
    generateUniqueCitations_spec hashString ["Citation A", "Citation B"] 3 rnd []
  have hexit := (loopCond_false_iff _ _ st).1 hc
  have hbudget := hinv.budget
  have hatMost := hinv.atMost
  simp only [List.length_cons, List.length_nil] at hexit hbudget
  have hused : st.usedSet = st.chosen.map Variant.hash := by
    rw [hinv.used_eq, List.nil_append]
  refine ⟨st.chosen, st.usedSet, hgen, by omega, ?_, ?_, hinv.nodup, hused⟩
  · constructor
    · intro hlen
      match hch : st.chosen, hlen with
      | [a, b, c], _ =>
        have hnd := hinv.nodup
        rw [hch] at hnd
        simp only [List.map_cons, List.map_nil, List.nodup_cons, List.mem_cons,
          List.mem_singleton, List.not_mem_nil, not_or, or_false] at hnd
        obtain ⟨k1, hk1, hc1⟩ := hinv.origin a (by rw [hch]; simp)
        obtain ⟨k2, hk2, hc2⟩ := hinv.origin b (by rw [hch]; simp)
        obtain ⟨k3, hk3, hc3⟩ := hinv.origin c (by rw [hch]; simp)
        exact ⟨k1, k2, k3, a, b, c, by omega, by omega, by omega, hc1, hc2, hc3,
          hnd.1.1, hnd.1.2, hnd.2.1⟩
    · rintro ⟨k1, k2, k3, v1, v2, v3, hk1, hk2, hk3, hc1, hc2, hc3, h12, h13, h23⟩
      by_contra hne
      have hatt : 6 ≤ st.attempts := by omega
      have hin : ∀ k v, k < 6 → CandidateAt hashString ["Citation A", "Citation B"] rnd k v →
          v.hash ∈ st.chosen.map Variant.hash := by
        intro k v hk hcand
        obtain ⟨w, hw, hwin⟩ := hinv.tried k (by omega)
        rw [candidateAt_unique hashString _ rnd k v w hcand hw, ← hused]
        exact hwin
      have h3 := three_le_length_of_mem _ _ _ _ (hin k1 v1 hk1 hc1) (hin k2 v2 hk2 hc2)
        (hin k3 v3 hk3 hc3) h12 h13 h23
      rw [List.length_map] at h3
      omega
  · intro v hv
    obtain ⟨k, -, raw, hmem, -, rfl⟩ := hinv.origin v hv
    simp only [List.mem_cons, List.mem_singleton, List.not_mem_nil, or_false] at hmem
    rcases hmem with rfl | rfl
    · left
      have ht : jsTrim "Citation A" = "Citation A" := by decide
      simp only [mkVariant, ht]
      exact composeText_starts "Citation A" _ _ _
    · right
      have ht : jsTrim "Citation B" = "Citation B" := by decide
      simp only [mkVariant, ht]
      exact composeText_starts "Citation B" _ _ _

/-- C2 as stated fails: when all six attempts draw the same values, they all
build the same text, so whatever `hashString` is the first attempt is accepted
and the other five are rejected; the call does not return 3 variants. -/
theorem C2_counterexample :
    ¬ ∃ hashString : String → String, ∃ result usedSet1,
      generateUniqueCitations hashString c2Pool [] 3 c2Rnd = .ok (result, usedSet1) ∧
      result.length = 3 := by
  rintro ⟨hashString, result, usedSet1, hgen, hlen⟩
  obtain ⟨st, hgen1, -, hinv, -⟩ :=
    generateUniqueCitations_spec hashString c2Pool 3 c2Rnd []
  rw [hgen1] at hgen
  cases hgen
  have hall : ∀ v ∈ st.chosen, v = mkVariant hashString "Citation A" c2Draw := by
    intro v hv
    obtain ⟨k, -, raw, -, hraw, rfl⟩ := hinv.origin v hv
    simp [c2Pool, c2Rnd, c2Draw] at hraw
    rw [← hraw]
    rfl
  match hch : st.chosen, hlen with
  | [a, b, c], _ =>
    have hnd := hinv.nodup
    have ha := hall a (by rw [hch]; simp)
    have hb := hall b (by rw [hch]; simp)
    rw [hch, ha, hb] at hnd
    simp at hnd

/-! ## Successive runs of main -/

section Runs

variable (hashString : String → String)

theorem whileLoop_accept (pool : List String) (count : Int) (rnd : Nat → Draw) (fuel : Nat)
    (st : LoopState) (raw : String) (hc : loopCond pool count st = true)
    (hraw : pool[(rnd st.attempts).u % pool.length]? = some raw)
    (hnew : (mkVariant hashString raw (rnd st.attempts)).hash ∉ st.usedSet) :
    whileLoop hashString pool count rnd (fuel + 1) st =
      whileLoop hashString pool count rnd fuel
        { attempts := st.attempts + 1,
          chosen := st.chosen ++ [mkVariant hashString raw (rnd st.attempts)],
          usedSet := st.usedSet ++ [(mkVariant hashString raw (rnd st.attempts)).hash] } := by
  rw [whileLoop_enter hashString pool count rnd fuel st hc]
  simp [loopBody, hraw, JsSet.has, JsSet.add, hnew]

/-- Four attempts whose hashes are new and pairwise distinct fill a request for
four variants. -/
theorem generate_four_fresh (pool : List String) (rnd : Nat → Draw) (usedSet0 : JsSet)
    (r0 r1 r2 r3 : String) (hpool : 2 ≤ pool.length)
    (h0 : pool[(rnd 0).u % pool.length]? = some r0)
    (h1 : pool[(rnd 1).u % pool.length]? = some r1)
    (h2 : pool[(rnd 2).u % pool.length]? = some r2)
    (h3 : pool[(rnd 3).u % pool.length]? = some r3)
    (hd : (usedSet0 ++ [(mkVariant hashString r0 (rnd 0)).hash,
      (mkVariant hashString r1 (rnd 1)).hash, (mkVariant hashString r2 (rnd 2)).hash,
      (mkVariant hashString r3 (rnd 3)).hash]).Nodup) :
    generateUniqueCitations hashString pool usedSet0 4 rnd =
      .ok ([mkVariant hashString r0 (rnd 0), mkVariant hashString r1 (rnd 1),
            mkVariant hashString r2 (rnd 2), mkVariant hashString r3 (rnd 3)],
           usedSet0 ++ [(mkVariant hashString r0 (rnd 0)).hash,
            (mkVariant hashString r1 (rnd 1)).hash, (mkVariant hashString r2 (rnd 2)).hash,
            (mkVariant hashString r3 (rnd 3)).hash]) := by
  obtain ⟨f, hf⟩ : ∃ f, pool.length * 3 = f + 1 + 1 + 1 + 1 := ⟨pool.length * 3 - 4, by omega⟩
  rw [List.nodup_append] at hd
  obtain ⟨-, hnd, hdis⟩ := hd
  simp only [List.nodup_cons, List.mem_cons, List.mem_singleton, List.not_mem_nil, not_or,
    or_false] at hnd
  have hn0 : (mkVariant hashString r0 (rnd 0)).hash ∉ usedSet0 :=
    fun h => hdis h (by simp)
  have hn1 : (mkVariant hashString r1 (rnd 1)).hash ∉ usedSet0 :=
    fun h => hdis h (by simp)
  have hn2 : (mkVariant hashString r2 (rnd 2)).hash ∉ usedSet0 :=
    fun h => hdis h (by simp)
  have hn3 : (mkVariant hashString r3 (rnd 3)).hash ∉ usedSet0 :=
    fun h => hdis h (by simp)
  unfold generateUniqueCitations runLoop
  rw [hf]
  rw [whileLoop_accept hashString pool 4 rnd _ _ r0
    (by rw [loopCond_true_iff]; simp; omega) h0 hn0]
  rw [whileLoop_accept hashString pool 4 rnd _ _ r1
    (by rw [loopCond_true_iff]; simp; omega) h1
    (by simp only [List.mem_append, List.mem_singleton, not_or]
        exact ⟨hn1, fun h => hnd.1.1 h.symm⟩)]
  rw [whileLoop_accept hashString pool 4 rnd _ _ r2
    (by rw [loopCond_true_iff]; simp; omega) h2
    (by simp only [List.mem_append, List.mem_singleton, not_or]
        exact ⟨⟨hn2, fun h => hnd.1.2.1 h.symm⟩, fun h => hnd.2.1.1 h.symm⟩)]
  rw [whileLoop_accept hashString pool 4 rnd _ _ r3
    (by rw [loopCond_true_iff]; simp; omega) h3
    (by simp only [List.mem_append, List.mem_singleton, not_or]
        exact ⟨⟨⟨hn3, fun h => hnd.1.2.2 h.symm⟩, fun h => hnd.2.1.2 h.symm⟩,
          fun h => hnd.2.2.1 h.symm⟩)]
  rw [whileLoop_exit hashString pool 4 rnd _ _ (by rw [loopCond_false_iff]; simp)]
  simp

theorem drop_range' (d : Nat) : ∀ s n : Nat, (List.range' s n).drop d = List.range' (s + d) (n - d) := by
  induction d with
  | zero => intro s n; simp
  | succ d ih =>
    intro s n
    cases n with
    | zero => simp
    | succ n =>
      rw [List.range'_succ, List.drop_succ_cons, ih]
      congr 1 <;> omega

theorem c8Window_append (lo hi : Nat) (h : lo ≤ hi) :
    c8Window hashString lo hi ++
        [(c8Variant hashString hi).hash, (c8Variant hashString (hi + 1)).hash,
         (c8Variant hashString (hi + 2)).hash, (c8Variant hashString (hi + 3)).hash] =
      c8Window hashString lo (hi + 4) := by
  unfold c8Window
  have h1 : hi + 4 - lo = (hi - lo) + 1 + 1 + 1 + 1 := by omega
  rw [h1, List.range'_1_concat, List.range'_1_concat, List.range'_1_concat,
    List.range'_1_concat]
  have h2 : lo + (hi - lo) = hi := by omega
  simp only [List.map_append, List.map_cons, List.map_nil, List.append_assoc, h2]
  have e1 : lo + (hi - lo + 1) = hi + 1 := by omega
  have e2 : lo + (hi - lo + 1 + 1) = hi + 2 := by omega
  have e3 : lo + (hi - lo + 1 + 1 + 1) = hi + 3 := by omega
  rw [e1, e2, e3]
  rfl

theorem c8Window_drop (lo hi d : Nat) :
    (c8Window hashString lo hi).drop d = c8Window hashString (lo + d) hi := by
  unfold c8Window
  rw [← List.map_drop, drop_range']
  congr 2
  omega

theorem c8Window_length (lo hi : Nat) : (c8Window hashString lo hi).length = hi - lo := by
  simp [c8Window]

theorem mem_c8Window (lo hi : Nat) (x : String) :
    x ∈ c8Window hashString lo hi ↔
      ∃ k, (lo ≤ k ∧ k < hi) ∧ (c8Variant hashString k).hash = x := by
  unfold c8Window
  rw [List.mem_map]
  constructor
  · rintro ⟨k, hk, rfl⟩
    rw [List.mem_range'_1] at hk
    exact ⟨k, by omega, rfl⟩
  · rintro ⟨k, hk, rfl⟩
    exact ⟨k, by rw [List.mem_range'_1]; omega, rfl⟩

/-- The window followed by four further hashes has no repeated entry when the
hashes of the schedule are pairwise distinct and the four lie outside the window. -/
theorem c8Window_nodup (hinj : C8Distinct hashString)
    (lo hi b : Nat) (hout : hi ≤ b ∨ b + 4 ≤ lo) (hhi : hi ≤ 10004) (hb : b + 4 ≤ 10004) :
    (c8Window hashString lo hi ++
        [(c8Variant hashString b).hash, (c8Variant hashString (b + 1)).hash,
         (c8Variant hashString (b + 2)).hash, (c8Variant hashString (b + 3)).hash]).Nodup := by
  have hnat : (List.range' lo (hi - lo) ++ [b, b + 1, b + 2, b + 3]).Nodup := by
    rw [List.nodup_append]
    refine ⟨List.nodup_range' lo (hi - lo), by simp, ?_⟩
    intro a ha hb
    rw [List.mem_range'_1] at ha
    simp only [List.mem_cons, List.mem_singleton, List.not_mem_nil, or_false] at hb
    omega
  have hbound : ∀ x ∈ List.range' lo (hi - lo) ++ [b, b + 1, b + 2, b + 3], x < 10004 := by
    intro x hx
    rw [List.mem_append, List.mem_range'_1] at hx
    simp only [List.mem_cons, List.mem_singleton, List.not_mem_nil, or_false] at hx
    omega
  have hmap := List.Nodup.map_on
    (fun x hx y hy hxy => hinj x y (hbound x hx) (hbound y hy) hxy) hnat
  simpa [c8Window] using hmap

/-- One run of `main` on a window of the schedule, with four draws whose
numbers lie outside the window: the four candidates are emitted. -/
theorem main_c8 (hinj : C8Distinct hashString)
    (lo hi b : Nat) (hout : hi ≤ b ∨ b + 4 ≤ lo) (hhi : hi ≤ 10004) (hb : b + 4 ≤ 10004) :
    main hashString c2Pool (c8Window hashString lo hi) (fun k => c8Draw (b + k)) =
      .ok ([c8Variant hashString b, c8Variant hashString (b + 1),
            c8Variant hashString (b + 2), c8Variant hashString (b + 3)],
           persisted (c8Window hashString lo hi ++
            [(c8Variant hashString b).hash, (c8Variant hashString (b + 1)).hash,
             (c8Variant hashString (b + 2)).hash, (c8Variant hashString (b + 3)).hash])) := by
  have hnd := c8Window_nodup hashString hinj lo hi b hout hhi hb
  have hw : (c8Window hashString lo hi).Nodup := (List.nodup_append.1 hnd).1
  unfold main
  simp only
  rw [ofArray_nodup_eq _ hw]
  rw [generate_four_fresh hashString c2Pool (fun k => c8Draw (b + k)) (c8Window hashString lo hi)
    "Citation A" "Citation A" "Citation A" "Citation A" (by decide) rfl rfl rfl rfl hnd]
  rfl

theorem c8_step (hinj : C8Distinct hashString) (i : Nat) (hi : i < 2501) :
    main hashString (c8Run i).citationsPool (c8File hashString i) (c8Run i).rnd =
      .ok (c8Emitted hashString i, c8File hashString (i + 1)) := by
  have h := main_c8 hashString hinj (4 * i - 10000) (4 * i) (4 * i) (Or.inl (le_refl _))
    (by omega) (by omega)
  rw [c8Window_append hashString _ _ (by omega), persisted_eq_drop, c8Window_drop,
    c8Window_length] at h
  have e : 4 * i - 10000 + (4 * i + 4 - (4 * i - 10000) - 10000) = 4 * (i + 1) - 10000 := by
    omega
  rw [e] at h
  exact h

theorem c8_last (hinj : C8Distinct hashString) :
    ∃ used, main hashString (c8Run 0).citationsPool (c8File hashString 2501) (c8Run 0).rnd =
      .ok (c8Emitted hashString 0, used) :=
  ⟨_, main_c8 hashString hinj (4 * 2501 - 10000) (4 * 2501) (4 * 0) (Or.inr (by decide))
    (by decide) (by decide)⟩

theorem mainRuns_cons_ok (used used1 used2 : List String) (r : Run) (rs : List Run)
    (citations : List Variant) (rest : List (List Variant))
    (h : main hashString r.citationsPool used r.rnd = .ok (citations, used1))
    (hrest : mainRuns hashString used1 rs = .ok (rest, used2)) :
    mainRuns hashString used (r :: rs) = .ok (citations :: rest, used2) := by
  simp [mainRuns, h, hrest]

/-- The runs numbered `s` to `s + n - 1` of the schedule, started on the file
left by the first `s` runs, emit their four candidates each. -/
theorem c8_runs_from (hinj : C8Distinct hashString)
    (rest : List Run) (later : List (List Variant)) (used : List String) (n : Nat) :
    ∀ s t : Nat, t = s + n → t ≤ 2501 →
      mainRuns hashString (c8File hashString t) rest = .ok (later, used) →
      mainRuns hashString (c8File hashString s) ((List.range' s n).map c8Run ++ rest) =
        .ok ((List.range' s n).map (c8Emitted hashString) ++ later, used) := by
  induction n with
  | zero =>
    intro s t ht _ hrest
    have hts : t = s := by omega
    subst hts
    simpa using hrest
  | succ n ih =>
    intro s t ht hle hrest
    rw [List.range'_succ, List.map_cons, List.cons_append, List.map_cons, List.cons_append]
    exact mainRuns_cons_ok hashString _ _ _ _ _ _ _ (c8_step hashString hinj s (by omega))
      (ih (s + 1) t (by omega) hle hrest)

/-- The whole schedule, for every hash function that gives the 10,004
candidates of the schedule pairwise distinct hashes: the last run emits again
the four variants of the first run. -/
theorem c8_schedule (hinj : C8Distinct hashString) :
    ∃ used, mainRuns hashString [] c8Runs =
      .ok ((List.range' 0 2501).map (c8Emitted hashString) ++ [c8Emitted hashString 0], used) := by
  obtain ⟨used, hlast⟩ := c8_last hashString hinj
  refine ⟨used, ?_⟩
  have hfinal : mainRuns hashString (c8File hashString 2501) [c8Run 0] =
      .ok ([c8Emitted hashString 0], used) :=
    mainRuns_cons_ok hashString _ _ _ _ _ _ _ hlast rfl
  have h := c8_runs_from hashString hinj [c8Run 0] [c8Emitted hashString 0] used 2501 0 2501
    (by omega) (le_refl _) hfinal
  have h0 : c8File hashString 0 = [] := by
    unfold c8File c8Window
    simp
  rw [h0] at h
  unfold c8Runs
  rw [List.range_eq_range']
  exact h

theorem not_crossRunDistinct_c8 :
    ¬ CrossRunDistinct
      ((List.range' 0 2501).map (c8Emitted hashString) ++ [c8Emitted hashString 0]) := by
  intro h
  unfold CrossRunDistinct at h
  rw [List.pairwise_append] at h
  have hmem : c8Emitted hashString 0 ∈ (List.range' 0 2501).map (c8Emitted hashString) :=
    List.mem_map.2 ⟨0, by rw [List.mem_range'_1]; omega, rfl⟩
  exact h.2.2 _ hmem _ (List.mem_singleton.2 rfl) (c8Variant hashString 0)
    (by simp [c8Emitted]) (c8Variant hashString 0) (by simp [c8Emitted]) rfl

theorem hexVal_hexChar : ∀ d, d < 16 → hexVal (hexChar d) = d := by decide

theorem ofDigits_replicate_zero (m : Nat) : Nat.ofDigits 16 (List.replicate m 0) = 0 := by
  induction m with
  | zero => rfl
  | succ m ih => rw [List.replicate_succ, Nat.ofDigits_cons, ih]

theorem c8Group_value (k : Nat) : Nat.ofDigits 16 ((c8Group k).map hexVal) = k := by
  have hmap : (Nat.digits 16 k).map (hexVal ∘ hexChar) = Nat.digits 16 k := by
    conv_rhs => rw [← List.map_id (Nat.digits 16 k)]
    apply List.map_congr_left
    intro d hd
    exact hexVal_hexChar d (Nat.digits_lt_base (by decide) hd)
  have hzero : hexVal '0' = 0 := by decide
  unfold c8Group
  rw [List.map_append, List.map_map, hmap, List.map_replicate, hzero, Nat.ofDigits_append,
    ofDigits_replicate_zero, Nat.ofDigits_digits]
  simp

theorem c8Uuid_injective : Function.Injective c8Uuid := by
  intro j k h
  unfold c8Uuid at h
  have hd := congrArg String.data h
  simp only [String.data_append] at hd
  have hg : c8Group j = c8Group k := List.append_cancel_left hd
  rw [← c8Group_value j, ← c8Group_value k, hg]

theorem hexChar_mem : ∀ d, d < 16 → hexChar d ∈ "0123456789abcdef".data := by decide

theorem toHexChar_mem (c : Char) : toHexChar c ∈ "0123456789abcdef".data := by
  unfold toHexChar
  split
  · assumption
  · exact hexChar_mem _ (Nat.mod_lt _ (by decide))

/-- The stand-in digest has the shape of the real one: twelve hexadecimal digits. -/
theorem suffixDigest_shape (s : String) :
    (suffixDigest s).data.length = 12 ∧
      ∀ c ∈ (suffixDigest s).data, c ∈ "0123456789abcdef".data := by
  unfold suffixDigest
  constructor
  · simp only [List.length_map, List.length_reverse, List.length_take, List.length_append,
      List.length_replicate]
    omega
  · intro c hc
    obtain ⟨d, -, rfl⟩ := List.mem_map.1 hc
    exact toHexChar_mem d

/-- The digest of a text that ends in twelve hexadecimal digits is these digits. -/
theorem suffixDigest_append (p : String) (g : List Char) (hlen : g.length = 12)
    (hhex : ∀ c ∈ g, c ∈ "0123456789abcdef".data) :
    suffixDigest (p ++ String.mk g) = String.mk g := by
  unfold suffixDigest
  have hdata : (p ++ String.mk g).data = p.data ++ g := by rw [String.data_append]
  have htake : ((List.replicate 12 '0' ++ (p.data ++ g)).reverse).take 12 = g.reverse := by
    rw [← List.append_assoc, List.reverse_append]
    exact List.take_left' (by rw [List.length_reverse, hlen])
  rw [hdata, htake, List.reverse_reverse]
  congr 1
  conv_rhs => rw [← List.map_id g]
  apply List.map_congr_left
  intro c hc
  simp only [toHexChar, hhex c hc, if_true, id]

theorem c8Group_shape (k : Nat) (hk : k < 10004) :
    (c8Group k).length = 12 ∧ ∀ c ∈ c8Group k, c ∈ "0123456789abcdef".data := by
  have hlen : (Nat.digits 16 k).length ≤ 12 := by
    by_contra hgt
    have hk0 : k ≠ 0 := by
      intro h0
      rw [h0] at hgt
      simp at hgt
    have h1 := Nat.base_pow_length_digits_le 16 k (by decide) hk0
    have h2 : 16 ^ 13 ≤ 16 ^ (Nat.digits 16 k).length :=
      Nat.pow_le_pow_right (by decide) (by omega)
    have h3 : (16 : Nat) ^ 13 = 4503599627370496 := by norm_num
    omega
  unfold c8Group
  constructor
  · simp only [List.length_append, List.length_map, List.length_replicate]
    omega
  · intro c hc
    rcases List.mem_append.1 hc with hc | hc
    · obtain ⟨d, hd, rfl⟩ := List.mem_map.1 hc
      exact hexChar_mem d (Nat.digits_lt_base (by decide) hd)
    · rw [(List.mem_replicate.1 hc).2]
      decide

/-- Under the stand-in digest the hash of the candidate numbered `k` is the last
group of its UUID. -/
theorem suffixDigest_c8Variant (k : Nat) (hk : k < 10004) :
    (c8Variant suffixDigest k).hash = String.mk (c8Group k) := by
  obtain ⟨hlen, hhex⟩ := c8Group_shape k hk
  have ht : jsTrim "Citation A" = "Citation A" := by decide
  have hu : suffixDigest (c8Uuid k) = String.mk (c8Group k) := by
    unfold c8Uuid
    exact suffixDigest_append _ _ hlen hhex
  have hi : arrayElement (insertions (c8Draw k)) (c8Draw k).insertionPick = "" := rfl
  have hm : arrayElement (modifiers (c8Draw k)) (c8Draw k).modifierPick = "" := rfl
  have huuid : (c8Draw k).uuid = c8Uuid k := rfl
  simp only [c8Variant, mkVariant, ht, hi, hm, huuid, hu, composeText, ne_eq, not_true_eq_false,
    if_false]
  exact suffixDigest_append _ _ hlen hhex

theorem suffixDigest_c8Distinct : C8Distinct suffixDigest := by
  intro j k hj hk h
  rw [suffixDigest_c8Variant j hj, suffixDigest_c8Variant k hk] at h
  have hg : c8Group j = c8Group k := by
    have := congrArg String.data h
    exact this
  rw [← c8Group_value j, ← c8Group_value k, hg]

end Runs

/-! ## The claims about successive runs -/

/-- One run of `main` returns: its citations and its new registry file come
from a final loop state that satisfies the invariant for the loaded set. -/
theorem main_spec (hashString : String → String) (pool used : List String) (rnd : Nat → Draw) :
    ∃ st, main hashString pool used rnd = .ok (st.chosen, persisted st.usedSet) ∧
      LoopInv hashString pool 4 rnd (JsSet.ofArray used) st := by
  obtain ⟨st, hgen, -, hinv, -⟩ :=
    generateUniqueCitations_spec hashString pool 4 rnd (JsSet.ofArray used)
  refine ⟨st, ?_, hinv⟩
  unfold main
  simp only
  rw [hgen]

theorem loopInv_usedSet_nodup (hashString : String → String) (pool : List String) (count : Int)
    (rnd : Nat → Draw) (usedSet0 : JsSet) (st : LoopState) (h0 : usedSet0.Nodup)
    (hinv : LoopInv hashString pool count rnd usedSet0 st) : st.usedSet.Nodup := by
  rw [hinv.used_eq, List.nodup_append]
  refine ⟨h0, hinv.nodup, ?_⟩
  intro a ha hb
  obtain ⟨v, hv, rfl⟩ := List.mem_map.1 hb
  exact hinv.fresh v hv ha

theorem main_total (hashString : String → String) (pool used : List String)
    (rnd : Nat → Draw) : ∃ out, main hashString pool used rnd = .ok out := by
  obtain ⟨st, hmain, -⟩ := main_spec hashString pool used rnd
  exact ⟨_, hmain⟩

/-- Successive runs of `main` all return. -/
theorem mainRuns_total (hashString : String → String) (runs : List Run) :
    ∀ used : List String, ∃ out, mainRuns hashString used runs = .ok out := by
  induction runs with
  | nil => intro used; exact ⟨_, rfl⟩
  | cons r rs ih =>
    intro used
    obtain ⟨⟨citations, used1⟩, hmain⟩ := main_total hashString r.citationsPool used r.rnd
    obtain ⟨⟨rest, used2⟩, hrest⟩ := ih used1
    exact ⟨(citations :: rest, used2), by simp [mainRuns, hmain, hrest]⟩

/-- The invariant of successive runs: the most recently recorded hashes `recent`
stay at the end of the registry file as long as they and the emitted hashes
number at most 10,000, and then no run emits one of them or one emitted before. -/
theorem mainRuns_recent (hashString : String → String) (runs : List Run) :
    ∀ (used pre recent : List String) (emitted : List (List Variant)) (used1 : List String),
      JsSet.ofArray used = pre ++ recent →
      mainRuns hashString used runs = .ok (emitted, used1) →
      recent.length + emitted.flatten.length ≤ 10000 →
      CrossRunDistinct emitted ∧ (emitted.flatten.map Variant.hash).Nodup ∧
        ∀ v ∈ emitted.flatten, v.hash ∉ recent := by
  induction runs with
  | nil =>
    intro used pre recent emitted used1 _ hrun _
    simp only [mainRuns, Except.ok.injEq, Prod.mk.injEq] at hrun
    obtain ⟨rfl, -⟩ := hrun
    exact ⟨List.Pairwise.nil, by simp, by simp⟩
  | cons r rs ih =>
    intro used pre recent emitted used1 hload hrun hsmall
    obtain ⟨st, hmain, hinv⟩ := main_spec hashString r.citationsPool used r.rnd
    obtain ⟨⟨rest, used2⟩, hrest⟩ := mainRuns_total hashString rs (persisted st.usedSet)
    simp only [mainRuns, hmain, hrest, Except.ok.injEq, Prod.mk.injEq] at hrun
    obtain ⟨rfl, -⟩ := hrun
    rw [List.flatten_cons, List.length_append] at hsmall
    have hused : st.usedSet = pre ++ (recent ++ st.chosen.map Variant.hash) := by
      rw [hinv.used_eq, hload, List.append_assoc]
    have hnd : st.usedSet.Nodup :=
      loopInv_usedSet_nodup hashString _ _ _ _ st (ofArray_nodup used) hinv
    have hdrop : st.usedSet.length - 10000 ≤ pre.length := by
      rw [hused]
      simp only [List.length_append, List.length_map]
      omega
    have hkeep : persisted st.usedSet =
        pre.drop (st.usedSet.length - 10000) ++ (recent ++ st.chosen.map Variant.hash) := by
      rw [persisted_eq_drop]
      conv_lhs => rw [hused]
      rw [List.drop_append_of_le_length (by simpa [hused] using hdrop)]
      rw [hused]
    have hload1 : JsSet.ofArray (persisted st.usedSet) =
        pre.drop (st.usedSet.length - 10000) ++ (recent ++ st.chosen.map Variant.hash) := by
      rw [ofArray_nodup_eq, hkeep]
      rw [persisted_eq_drop]
      exact hnd.sublist (List.drop_sublist _ _)
    obtain ⟨hcross, hnodup, hfresh⟩ := ih (persisted st.usedSet) _ _ rest used2 hload1 hrest
      (by simp only [List.length_append, List.length_map]; omega)
    have hchosen : ∀ v ∈ st.chosen, v.hash ∈ recent ++ st.chosen.map Variant.hash := by
      intro v hv
      exact List.mem_append_right _ (List.mem_map.2 ⟨v, hv, rfl⟩)
    refine ⟨?_, ?_, ?_⟩
    · unfold CrossRunDistinct
      rw [List.pairwise_cons]
      refine ⟨?_, hcross⟩
      intro later hlater v hv w hw heq
      apply hfresh w (List.mem_flatten.2 ⟨later, hlater, hw⟩)
      rw [← heq]
      exact hchosen v hv
    · rw [List.flatten_cons, List.map_append, List.nodup_append]
      refine ⟨hinv.nodup, hnodup, ?_⟩
      intro a ha hb
      obtain ⟨v, hv, rfl⟩ := List.mem_map.1 ha
      obtain ⟨w, hw, heq⟩ := List.mem_map.1 hb
      apply hfresh w hw
      rw [heq]
      exact hchosen v hv
    · intro v hv
      rw [List.flatten_cons] at hv
      rcases List.mem_append.1 hv with hv | hv
      · intro hin
        apply hinv.fresh v hv
        rw [hload]
        exact List.mem_append_right _ hin
      · intro hin
        exact hfresh v hv (List.mem_append_left _ hin)

/-- C8, amended: every sequence of runs of `main` returns, from whatever
registry file it starts; when the runs emit at most 10,000 variants in all, no
hash emitted in a later run equals a hash emitted in an earlier run and the
emitted hashes are pairwise distinct; when moreover the hashes of the initial
registry and the emitted variants together number at most 10,000 (no save drops
an entry), no emitted hash is in the initial registry file. -/
theorem C8_no_repeat_within_window (hashString : String → String) (used : List String)
    (runs : List Run) :
    ∃ emitted used1, mainRuns hashString used runs = .ok (emitted, used1) ∧
      (emitted.flatten.length ≤ 10000 →
        CrossRunDistinct emitted ∧ (emitted.flatten.map Variant.hash).Nodup) ∧
      ((JsSet.ofArray used).length + emitted.flatten.length ≤ 10000 →
        ∀ v ∈ emitted.flatten, v.hash ∉ used) := by
  obtain ⟨⟨emitted, used1⟩, hrun⟩ := mainRuns_total hashString runs used
  refine ⟨emitted, used1, hrun, ?_, ?_⟩
  · intro hsmall
    obtain ⟨hcross, hnodup, -⟩ := mainRuns_recent hashString runs used (JsSet.ofArray used) []
      emitted used1 (by simp) hrun (by simpa using hsmall)
    exact ⟨hcross, hnodup⟩
  · intro hsmall v hv hin
    obtain ⟨-, -, hfresh⟩ := mainRuns_recent hashString runs used [] (JsSet.ofArray used)
      emitted used1 (by simp) hrun hsmall
    exact hfresh v hv ((mem_ofArray used v.hash).2 hin)

/-- Two runs from the empty registry under the stand-in digest emit eight
variants, and no hash of the first run is emitted by the second. -/
theorem C8_no_repeat_within_window_witness :
    ∃ emitted used1, mainRuns suffixDigest [] c8TwoRuns = .ok (emitted, used1) ∧
      emitted.flatten.length = 8 ∧ CrossRunDistinct emitted ∧
      (emitted.flatten.map Variant.hash).Nodup := by
  obtain ⟨emitted, used1, hrun, himp, -⟩ := C8_no_repeat_within_window suffixDigest [] c8TwoRuns
  have hconc : mainRuns suffixDigest [] c8TwoRuns =
      .ok ([c8Emitted suffixDigest 0, c8Emitted suffixDigest 1], c8File suffixDigest 2) :=
    mainRuns_cons_ok suffixDigest _ _ _ _ _ _ _
      (c8_step suffixDigest suffixDigest_c8Distinct 0 (by decide))
      (mainRuns_cons_ok suffixDigest _ _ _ _ _ _ _
        (c8_step suffixDigest suffixDigest_c8Distinct 1 (by decide)) rfl)
  rw [hconc] at hrun
  cases hrun
  have h := himp (by simp [c8Emitted])
  exact ⟨_, _, hconc, rfl, h.1, h.2⟩

/-- C8 as stated fails, for a hash function with the shape of the real digest
(twelve hexadecimal digits) as for any other that gives the 10,004 texts of the
schedule distinct hashes: from the empty registry, after 2501 runs of four new
variants each the save has dropped the four hashes of the first run from the
registry file, and a run that draws the values of the first run again emits the
variants of the first run again. -/
theorem C8_counterexample :
    ∃ emitted used, mainRuns suffixDigest [] c8Runs = .ok (emitted, used) ∧
      emitted.length = 2502 ∧
      emitted[0]? = some (c8Emitted suffixDigest 0) ∧
      emitted[2501]? = some (c8Emitted suffixDigest 0) ∧
      (c8Emitted suffixDigest 0).map Variant.hash =
        ["000000000000", "100000000000", "200000000000", "300000000000"] ∧
      ¬ CrossRunDistinct emitted := by
  obtain ⟨used, hrun⟩ := c8_schedule suffixDigest suffixDigest_c8Distinct
  refine ⟨_, used, hrun, by simp, ?_, ?_, ?_, not_crossRunDistinct_c8 suffixDigest⟩
  · rw [List.getElem?_append_left (by simp)]
    rw [List.getElem?_map, List.getElem?_range' _ _ (by omega)]
    rfl
  · rw [List.getElem?_append_right (by simp)]
    simp
  · simp only [c8Emitted, List.map_cons, List.map_nil,
      suffixDigest_c8Variant _ (show 4 * 0 < 10004 by decide),
      suffixDigest_c8Variant _ (show 4 * 0 + 1 < 10004 by decide),
      suffixDigest_c8Variant _ (show 4 * 0 + 2 < 10004 by decide),
      suffixDigest_c8Variant _ (show 4 * 0 + 3 < 10004 by decide)]
    simp [c8Group, hexChar]

/-- The exhausted budget: on the scenario pool with six identical draws the call
makes all `3 * 2` attempts and returns one variant, fewer than the 3 requested. -/
theorem C3_bounded_retry_witness :
    (0 : Int) ≤ 3 ∧
    (runLoop identityHash c2Pool [] 3 c2Rnd).map (fun st => (st.attempts, st.chosen.length)) =
      .ok (6, 1) ∧
    ∃ st, runLoop identityHash c2Pool [] 3 c2Rnd = .ok st ∧
      generateUniqueCitations identityHash c2Pool [] 3 c2Rnd = .ok (st.chosen, st.usedSet) ∧
      st.attempts ≤ 3 * c2Pool.length ∧
      (st.chosen.length : Int) ≤ 3 ∧
      ((st.chosen.length : Int) < 3 → st.attempts = 3 * c2Pool.length) ∧
      (st.attempts < 3 * c2Pool.length → (st.chosen.length : Int) = 3) :=
  ⟨by decide, rfl, C3_bounded_retry identityHash c2Pool [] 3 c2Rnd (by decide)⟩

end Generate
